import Mathlib

/-!
Verification of the Formik form-state controller (src/Formik.tsx) against its
natural-language specification.

The embedding models JavaScript values as the inductive type `Val`, and the
controller's operations as pure Lean functions (for the synchronous parts) or
as explicit transition functions on controller states (for the asynchronous,
cancelable validation machinery).  The helper functions from utils.ts
(`setIn`, `getIn`, `setNestedObjectValues`, `makeCancelable`) are not part of
the provided sources, so they are modelled from the specification and marked
as such in their doc comments.
-/

namespace Formik

/-- A JavaScript value tree: scalar leaves (string, integer number, boolean,
undefined) and the two container kinds (object as an association list of
string keys, array as a list). -/
inductive Val where
  | str : String → Val
  | num : Int → Val
  | bool : Bool → Val
  | undefined : Val
  | obj : List (String × Val) → Val
  | arr : List Val → Val
deriving Repr

/-- JavaScript truthiness of a `Val`: empty string, zero, `false` and
`undefined` are falsy; every object and array is truthy. -/
def truthy : Val → Bool
  | .str s => !(s == "")
  | .num n => !(n == 0)
  | .bool b => b
  | .undefined => false
  | .obj _ => true
  | .arr _ => true

/-- The empty object `{}`. -/
def emptyObj : Val := .obj []

/-- Look up a key in an association list of object fields (first match, like
JavaScript property lookup on our canonical objects). -/
def findField : List (String × Val) → String → Option Val
  | [], _ => none
  | (k, v) :: rest, key => if k = key then some v else findField rest key

/-- Plain JavaScript property access `o[k]`: `undefined` when the key is
missing or the receiver is not an object. -/
def jsGet (o : Val) (k : String) : Val :=
  match o with
  | .obj fs => (findField fs k).getD .undefined
  | _ => .undefined

/-- Replace the binding for `key` in an object field list, or append a new
binding when the key is absent. -/
def updateField : List (String × Val) → String → Val → List (String × Val)
  | [], key, v => [(key, v)]
  | (k, w) :: rest, key, v =>
      if k = key then (k, v) :: rest else (k, w) :: updateField rest key v

/-- One segment of a parsed path: an object key or an array index. -/
inductive Seg where
  | key : String → Seg
  | idx : Nat → Seg
deriving Repr, DecidableEq

/-- Split a character list at every occurrence of the separator, following
the JavaScript `String.split` convention: n separators give n+1 chunks. -/
def splitOnChar (c : Char) : List Char → List (List Char)
  | [] => [[]]
  | x :: rest =>
      match splitOnChar c rest with
      | [] => if x = c then [[], []] else [[x]]
      | g :: gs => if x = c then [] :: g :: gs else (x :: g) :: gs

/-- Parse a non-empty all-digit character list as a decimal number. -/
def charsToNat? (cs : List Char) : Option Nat :=
  if cs = [] then none
  else cs.foldl (fun acc c =>
    match acc with
    | none => none
    | some n => if c.isDigit then some (n * 10 + (c.toNat - 48)) else none) (some 0)

/-- Parse one dot-separated chunk, splitting off bracketed indices:
`items[2]` becomes `[key items, idx 2]`. -/
def parseSeg (chunk : List Char) : List Seg :=
  match splitOnChar '[' chunk with
  | [] => []
  | h :: rest =>
      (if h = [] then [] else [Seg.key ⟨h⟩]) ++
        rest.map (fun r =>
          match charsToNat? r.dropLast with
          | some n => Seg.idx n
          | none => Seg.key ⟨r.dropLast⟩)

/-- Modelled from the spec: the Path grammar of PathAddressing — a string of
dotted keys and bracketed indices (`"address.street"`, `"items[2].name"`)
parsed into a segment list.  The concrete parser lives in the absent
utils.ts. -/
def parsePath (p : String) : List Seg :=
  (splitOnChar '.' p.data).foldr (fun c acc => parseSeg c ++ acc) []

/-- Pad a list with `undefined` up to (excluding) index `n` and place `v` there;
used when `setIn` writes past the end of an array. -/
def placeAt : List Val → Nat → Val → List Val
  | [], 0, v => [v]
  | [], n + 1, v => .undefined :: placeAt [] n v
  | _ :: rest, 0, v => v :: rest
  | x :: rest, n + 1, v => x :: placeAt rest n v

/-- Modelled from the spec: PathAddressing `get` on a parsed segment list —
resolves nested object keys and array indices; missing intermediate nodes
yield `undefined`, never throw. -/
def getSegs : Val → List Seg → Val
  | t, [] => t
  | .obj fs, .key k :: rest => getSegs ((findField fs k).getD .undefined) rest
  | .arr xs, .idx n :: rest => getSegs (xs.getD n .undefined) rest
  | _, _ => .undefined

/-- Modelled from the spec: PathAddressing `set` on a parsed segment list —
returns a new tree with the leaf at the path replaced; intermediate
containers are created as objects or arrays depending on whether the next
segment is an index. -/
def setSegs : Val → List Seg → Val → Val
  | _, [], v => v
  | t, .key k :: rest, v =>
      match t with
      | .obj fs => .obj (updateField fs k (setSegs ((findField fs k).getD .undefined) rest v))
      | _ => .obj [(k, setSegs .undefined rest v)]
  | t, .idx n :: rest, v =>
      match t with
      | .arr xs => .arr (placeAt xs n (setSegs (xs.getD n .undefined) rest v))
      | _ => .arr (placeAt [] n (setSegs .undefined rest v))

/-- Modelled from the spec: utils.ts `getIn` — PathAddressing `get` on a
string path. -/
def getIn (t : Val) (p : String) : Val :=
  getSegs t (parsePath p)

/-- Modelled from the spec: utils.ts `setIn` — PathAddressing `set` on a
string path. -/
def setIn (t : Val) (p : String) (v : Val) : Val :=
  setSegs t (parsePath p) v

mutual

/-- Modelled from the spec: utils.ts `setNestedObjectValues` applied with
`true` (`setNestedAllTrue`) — rebuilds the tree shape replacing every
non-container leaf with `true`. -/
def setNestedAllTrue : Val → Val
  | .obj fs => .obj (setNestedAllTrueFields fs)
  | .arr xs => .arr (setNestedAllTrueList xs)
  | _ => .bool true

def setNestedAllTrueFields : List (String × Val) → List (String × Val)
  | [] => []
  | (k, v) :: rest => (k, setNestedAllTrue v) :: setNestedAllTrueFields rest

def setNestedAllTrueList : List Val → List Val
  | [] => []
  | v :: rest => setNestedAllTrue v :: setNestedAllTrueList rest

end

/-- Generic association-list lookup with string keys (first match). -/
def lookupKey {α : Type} : List (String × α) → String → Option α
  | [], _ => none
  | (k, v) :: rest, key => if k = key then some v else lookupKey rest key

/-! ## Handler-level validation (`runValidateHandler`, Formik.tsx 224-242) -/

/-- The observable outcome of calling a JavaScript function that may return a
plain value (possibly `undefined`), or a promise that later resolves or
rejects. -/
inductive JsOutcome where
  | value : Val → JsOutcome
  | promiseResolve : Val → JsOutcome
  | promiseReject : Val → JsOutcome

/-- Embedding of `runValidateHandler` (Formik.tsx 224-242): the result of the
configured `validate` prop is inspected — `undefined` resolves to `{}`, a
promise resolves to `{}` on fulfillment and to its rejection value on
rejection, and any other synchronous return value is resolved as-is. -/
def runValidateHandler : JsOutcome → Val
  | .value .undefined => emptyObj
  | .value v => v
  | .promiseResolve _ => emptyObj
  | .promiseReject e => e

/-! ## Schema validation data preparation (`validateYupSchema`, Formik.tsx 702-719) -/

/-- The ternary `values[key] !== '' ? values[key] : undefined`
(Formik.tsx 712). -/
def blankToUndef : Val → Val
  | .str "" => .undefined
  | v => v

/-- Embedding of the `validateData` loop in `validateYupSchema`
(Formik.tsx 708-714): a fresh object is built from the own keys of `values`,
replacing a value that is strictly equal to the empty string by `undefined`
and copying every other value unchanged.  A `for..in` loop over an array
enumerates its indices as string keys; over a non-container it contributes
no keys, so the result is `{}`. -/
def prepareValidateData : Val → Val
  | .obj fs => .obj (fs.map (fun kv => (kv.1, blankToUndef kv.2)))
  | .arr xs => .obj ((xs.enum).map (fun iv => (toString iv.1, blankToUndef iv.2)))
  | _ => emptyObj

/-! ## Yup error conversion (`yupToFormErrors`, Formik.tsx 686-697) -/

/-- One entry of a Yup validation error's `inner` list. -/
structure YupInnerError where
  path : String
  message : String
deriving DecidableEq

/-- A Yup validation error: its own path and message, plus the aggregated
`inner` entries (empty when the schema reported a single failure with
`abortEarly`). -/
structure YupError where
  path : String
  message : String
  inner : List YupInnerError

/-- One step of the `yupToFormErrors` loop (Formik.tsx 691-695): the entry is
applied through `setIn` only when the direct property access
`errors[err.path]` (the whole path string as one key) is falsy. -/
def yupFoldStep (errors : Val) (err : YupInnerError) : Val :=
  if truthy (jsGet errors err.path) then errors
  else setIn errors err.path (.str err.message)

/-- Embedding of `yupToFormErrors` (Formik.tsx 686-697): when `inner` is
empty, one `setIn` at the error's own path; otherwise the entries are folded
in source order through `yupFoldStep`. -/
def yupToFormErrors (e : YupError) : Val :=
  if e.inner.length = 0 then
    setIn emptyObj e.path (.str e.message)
  else
    e.inner.foldl yupFoldStep emptyObj

/-! ## Field-level validation (Formik.tsx 180-222) -/

/-- The outcome of invoking one field-level validator: it returned a value
(directly or through a fulfilled promise), or it threw / its promise
rejected with a value. -/
inductive VResult where
  | ret : Val → VResult
  | thrown : Val → VResult

/-- Embedding of `runSingleFieldLevelValidation` (Formik.tsx 180-187): the
validator call is wrapped in a promise and `.then(x => x, e => e)` funnels
both the fulfillment and the thrown/rejection value into a resolution — the
function always resolves, never re-throws. -/
def runSingleFieldLevelValidation : VResult → Val
  | .ret v => v
  | .thrown e => e

/-- The sentinel resolved when no registered field declares a validator
(Formik.tsx 206). -/
def sentinel : String := "DO_NOT_DELETE_YOU_WILL_BE_FIRED"

/-- Strict string comparison `curr === sentinel` (Formik.tsx 211). -/
def isSentinelVal : Val → Bool
  | .str s => s == sentinel
  | _ => false

/-- Embedding of the `reduce` in `runFieldLevelValidations`
(Formik.tsx 208-221), recursing with an explicit index: the sentinel is
skipped, a truthy result is written at `fieldKeysWithValidation[index]`, a
falsy result is skipped. -/
def reduceAux (keys : List String) : Nat → Val → List Val → Val
  | _, prev, [] => prev
  | i, prev, c :: rest =>
      let prev' :=
        if isSentinelVal c then prev
        else if truthy c then setIn prev (keys.getD i "") c
        else prev
      reduceAux keys (i + 1) prev' rest

/-- A field registry entry: the field's path together with the outcome its
`validate` prop would produce, or `none` when the field declares no
validator (Formik.tsx 192-198 filters those out). -/
abbrev FieldRegistry := List (String × Option VResult)

/-- Embedding of `runFieldLevelValidations` (Formik.tsx 189-222): filter the
registered fields to those with a validator, run each one (all settle, per
`runSingleFieldLevelValidation`), or produce the single sentinel when none
has a validator; then reduce the settled list into an ErrorTree. -/
def runFieldLevelValidations (fields : FieldRegistry) : Val :=
  let withValidate := fields.filterMap (fun fo => fo.2.map (fun r => (fo.1, r)))
  let fieldKeysWithValidation := withValidate.map Prod.fst
  let fieldErrorsList :=
    if fieldKeysWithValidation.length > 0 then
      withValidate.map (fun fr => runSingleFieldLevelValidation fr.2)
    else [.str sentinel]
  reduceAux fieldKeysWithValidation 0 emptyObj fieldErrorsList

/-- Proof-support restatement of one `reduce` step of
`runFieldLevelValidations`, carrying the field's key next to its settled
result instead of indexing a separate key list. -/
def fieldFoldStep (prev : Val) (fr : String × VResult) : Val :=
  let c := runSingleFieldLevelValidation fr.2
  if isSentinelVal c then prev
  else if truthy c then setIn prev fr.1 c
  else prev

/-- Proof-support restatement of the `reduce` of `runFieldLevelValidations`
as a fold over key-result pairs; `reduceAux_eq_fieldFold` relates the two. -/
def fieldFold (pairs : List (String × VResult)) (acc : Val) : Val :=
  pairs.foldl fieldFoldStep acc

/-! ## Whole-form validation runs and cancellation (Formik.tsx 95-108, 267-300)

`makeCancelable` is not among the provided sources; its semantics are
modelled from the spec (CancelableTask): a handle whose `cancel()` marks the
run stale, and a stale completion fires neither the fulfillment nor the
rejection path.  Runs are identified by tokens drawn from a counter. -/

/-- The controller state relevant to whole-form validation: the committed
errors, the mounted flag, the current authoritative run's token
(`this.validator` holds its cancel handle), the tokens of cancelled runs,
and the next fresh token. -/
structure VCtrl where
  errors : Val
  didMount : Bool
  validator : Option Nat
  cancelled : List Nat
  nextId : Nat

/-- Embedding of the start of `runValidations` (Formik.tsx 270-286): the
previous handle — when one exists — is cancelled first, then the new run is
wrapped in `makeCancelable` and its cancel handle stored in
`this.validator`.  Returns the new run's token. -/
def startRun (s : VCtrl) : Nat × VCtrl :=
  let cancelled' :=
    match s.validator with
    | some i => i :: s.cancelled
    | none => s.cancelled
  (s.nextId,
   { s with cancelled := cancelled',
            validator := some s.nextId,
            nextId := s.nextId + 1 })

/-- Embedding of a run's completion (Formik.tsx 287-299 plus the modelled
CancelableTask drop): a cancelled run's settlement fires nothing; otherwise
the continuation commits the merged errors when the component is still
mounted.  (The code skips the `setState` when the new tree `isEqual`s the
old one; that skip produces the same state, so it is elided here.) -/
def settleRun (s : VCtrl) (i : Nat) (result : Val) : VCtrl :=
  if i ∈ s.cancelled then s
  else if s.didMount then { s with errors := result }
  else s

/-- Embedding of `componentWillUnmount` (Formik.tsx 95-108): clear
`didMount`, and cancel the in-flight validation handle when one exists. -/
def unmount (s : VCtrl) : VCtrl :=
  let cancelled' :=
    match s.validator with
    | some i => i :: s.cancelled
    | none => s.cancelled
  { s with didMount := false, cancelled := cancelled' }

/-- Well-formedness of a `VCtrl`: every used token is below the counter. -/
def VInv (s : VCtrl) : Prop :=
  (∀ j ∈ s.cancelled, j < s.nextId) ∧
  (∀ i, s.validator = some i → i < s.nextId)

/-! ## Submission (`submitForm` / `executeSubmit`, Formik.tsx 426-457) -/

/-- The stored form state driven by a submit attempt. -/
structure FState where
  values : Val
  errors : Val
  touched : Val
  isSubmitting : Bool
  isValidating : Bool
  submitCount : Nat

/-- `Object.keys(x).length` on our canonical values: the number of top-level
keys of an object (indices of an array); scalars have none. -/
def topLevelKeyCount : Val → Nat
  | .obj fs => fs.length
  | .arr xs => xs.length
  | _ => 0

/-- Embedding of one completed, un-superseded `submitForm` attempt
(Formik.tsx 426-457), parameterized by the merged ErrorTree the validation
pipeline produced and by whether the component is still mounted when the
asynchronous continuations run.  Returns the final state, the list of
`onSubmit` invocations (each recorded by the values it received — the action
bag is elided), and the value resolved to the caller of `submitForm`
(`none` models resolving with `undefined`). -/
def submitForm {α : Type} (onSubmit : Val → α) (didMount : Bool)
    (s : FState) (mergedErrors : Val) : FState × List Val × Option α :=
  let s1 := { s with touched := setNestedAllTrue s.values,
                     isSubmitting := true,
                     isValidating := true,
                     submitCount := s.submitCount + 1 }
  let s2 := if didMount then { s1 with errors := mergedErrors } else s1
  let s3 := if didMount then { s2 with isValidating := false } else s2
  if topLevelKeyCount mergedErrors = 0 then
    (s3, [s3.values], some (onSubmit s3.values))
  else
    ((if didMount then { s3 with isSubmitting := false } else s3), [], none)

/-! ## `handleChange` memoization (Formik.tsx 357-371) -/

/-- The per-instance `hcCache` of `handleChange`: each cached closure is a
distinct function object, modelled by a fresh token from a counter. -/
structure HCState where
  hcCache : List (String × Nat)
  nextHandler : Nat

/-- Embedding of the string branch of `handleChange` (Formik.tsx 358-366):
when the cache holds a function at `path` it is returned, otherwise a fresh
closure is allocated, stored at `path`, and returned. -/
def handleChangeCached (s : HCState) (path : String) : Nat × HCState :=
  match lookupKey s.hcCache path with
  | some h => (h, s)
  | none =>
      (s.nextHandler,
       { hcCache := s.hcCache ++ [(path, s.nextHandler)],
         nextHandler := s.nextHandler + 1 })

/-- Well-formedness of the handler cache: distinct cached tokens, all below
the counter. -/
def HCInv (s : HCState) : Prop :=
  (s.hcCache.map Prod.snd).Nodup ∧ ∀ h ∈ s.hcCache.map Prod.snd, h < s.nextHandler

/-! ## Reset (`resetForm` / `handleReset`, Formik.tsx 534-566) -/

/-- The controller state relevant to a reset: the stored form state, the
remembered initial values (`this.initialValues`), and the configured
`initialValues` / `initialStatus` props. -/
structure RCtrl where
  values : Val
  errors : Val
  touched : Val
  error : Val
  status : Val
  isSubmitting : Bool
  isValidating : Bool
  submitCount : Nat
  initialValues : Val
  propsInitialValues : Val
  propsInitialStatus : Val

/-- Embedding of `resetForm` (Formik.tsx 534-549): the next values are the
argument when truthy, else the `initialValues` prop; they become both the
remembered initial values and the state's values, with everything else
pristine. -/
def resetForm (s : RCtrl) (nextValues : Val) : RCtrl :=
  let values := if truthy nextValues then nextValues else s.propsInitialValues
  { s with initialValues := values,
           isSubmitting := false,
           isValidating := false,
           errors := emptyObj,
           touched := emptyObj,
           error := .undefined,
           status := s.propsInitialStatus,
           values := values,
           submitCount := 0 }

/-- The observable outcome of the configured `onReset` prop: absent,
returned a non-promise, or returned a promise that resolves to a value. -/
inductive ResetOutcome where
  | noHandler
  | syncReturn : Val → ResetOutcome
  | promiseResolve : Val → ResetOutcome

/-- Embedding of `handleReset` (Formik.tsx 551-566) at the point its effect
on state is complete: with no handler or a non-promise return, `resetForm`
runs with no argument (`undefined`); with a promise, `.then(this.resetForm)`
passes the resolved value as the next-values argument. -/
def handleReset (s : RCtrl) (o : ResetOutcome) : RCtrl :=
  match o with
  | .noHandler => resetForm s .undefined
  | .syncReturn _ => resetForm s .undefined
  | .promiseResolve v => resetForm s v

/-! ## Basic lemmas -/

theorem findField_map_value (f : Val → Val) (fs : List (String × Val)) (k : String) :
    findField (fs.map (fun kv => (kv.1, f kv.2))) k = (findField fs k).map f := by
  induction fs with
  | nil => rfl
  | cons kv rest ih =>
      obtain ⟨a, b⟩ := kv
      by_cases h : a = k <;> simp [findField, h, ih]

/-! ## C2: handler-level validation and synchronous returns -/

/-- C2 counterexample: a synchronous, non-undefined return of the configured
`validate` prop is not discarded — `runValidateHandler` resolves it as-is,
so a truthy synchronous return does contribute to the merged ErrorTree,
contradicting the claim that only awaited rejections populate errors. -/
theorem C2_sync_return_counterexample :
    runValidateHandler (.value (.obj [("email", .str "required")])) =
      .obj [("email", .str "required")] ∧
    Val.obj [("email", .str "required")] ≠ emptyObj := by
  refine ⟨rfl, ?_⟩
  intro h
  simp [emptyObj] at h

/-- C2 amended: `runValidateHandler` treats a synchronous `undefined` and a
promise fulfillment as "no errors" (`{}`), uses a promise's rejection value
directly as the ErrorTree, and resolves any other synchronous return value
as-is (it is not discarded). -/
theorem C2_sync_return_amended (v e : Val) (hv : v ≠ .undefined) :
    runValidateHandler (.value .undefined) = emptyObj ∧
    runValidateHandler (.promiseResolve v) = emptyObj ∧
    runValidateHandler (.promiseReject e) = e ∧
    runValidateHandler (.value v) = v := by
  refine ⟨rfl, rfl, rfl, ?_⟩
  cases v with
  | undefined => exact absurd rfl hv
  | str s => rfl
  | num n => rfl
  | bool b => rfl
  | obj fs => rfl
  | arr xs => rfl

/-- C2 witness: the amended statement evaluated at a concrete synchronous
return. -/
theorem C2_sync_return_amended_witness :
    runValidateHandler (.value (.obj [("a", .str "x")])) = .obj [("a", .str "x")] :=
  (C2_sync_return_amended (.obj [("a", .str "x")]) .undefined (by simp)).2.2.2

/-! ## C5: empty-string rewriting before schema validation -/

/-- C5 counterexample: `validateYupSchema` rewrites empty strings only at the
top level of the values object — a nested empty-string leaf reaches the
schema unchanged, contradicting the claim that the rewrite happens at any
nesting depth. -/
theorem C5_blank_leaf_counterexample :
    jsGet (jsGet (prepareValidateData (.obj [("a", .obj [("b", .str "")])])) "a") "b" =
      .str "" ∧
    Val.str "" ≠ .undefined := by
  refine ⟨rfl, ?_⟩
  intro h
  simp at h

/-- C5 amended: the data handed to the schema is a fresh object whose entry
at each top-level key is `undefined` when the original entry is the empty
string and the original entry — nested subtree included, unchanged —
otherwise; the embedding is a pure function, so the original tree is not
mutated. -/
theorem C5_blank_leaf_amended (fs : List (String × Val)) (k : String) :
    jsGet (prepareValidateData (.obj fs)) k = blankToUndef (jsGet (.obj fs) k) := by
  simp only [prepareValidateData, jsGet, findField_map_value]
  cases findField fs k <;> rfl

/-! ## Simple-path lemmas: a path that parses to a single key segment -/

theorem setIn_obj_simple {p : String} (hp : parsePath p = [Seg.key p])
    (fs : List (String × Val)) (v : Val) :
    setIn (.obj fs) p v = .obj (updateField fs p v) := by
  rw [setIn, hp]
  rfl

theorem findField_updateField_self (fs : List (String × Val)) (k : String) (v : Val) :
    findField (updateField fs k v) k = some v := by
  induction fs with
  | nil => simp [updateField, findField]
  | cons kv rest ih =>
      obtain ⟨a, b⟩ := kv
      by_cases h : a = k <;> simp [updateField, findField, h, ih]

theorem findField_updateField_ne (fs : List (String × Val)) {k k2 : String} (v : Val)
    (h : k ≠ k2) : findField (updateField fs k v) k2 = findField fs k2 := by
  induction fs with
  | nil => simp [updateField, findField, h]
  | cons kv rest ih =>
      obtain ⟨a, b⟩ := kv
      by_cases ha : a = k
      · subst ha
        simp [updateField, findField, h]
      · by_cases ha2 : a = k2 <;>
          simp [updateField, findField, ha, ha2, ih, Ne.symm h]

theorem jsGet_setIn_simple_self {p : String} (hp : parsePath p = [Seg.key p])
    (fs : List (String × Val)) (v : Val) :
    jsGet (setIn (.obj fs) p v) p = v := by
  rw [setIn_obj_simple hp]
  simp [jsGet, findField_updateField_self]

theorem jsGet_setIn_simple_ne {p q : String} (hp : parsePath p = [Seg.key p])
    (hne : p ≠ q) (fs : List (String × Val)) (v : Val) :
    jsGet (setIn (.obj fs) p v) q = jsGet (.obj fs) q := by
  rw [setIn_obj_simple hp]
  simp [jsGet, findField_updateField_ne fs v hne]

/-! ## C6: conversion of schema rejections to an ErrorTree -/

theorem yupFold_get (entries : List YupInnerError) (p : String) :
    ∀ fs : List (String × Val),
    (∀ err ∈ entries, parsePath err.path = [Seg.key err.path]) →
    (∀ err ∈ entries, err.message ≠ "") →
    jsGet (entries.foldl yupFoldStep (.obj fs)) p =
      (if truthy (jsGet (.obj fs) p) = true then jsGet (.obj fs) p
       else ((entries.find? (fun err => err.path == p)).map
              (fun e => Val.str e.message)).getD (jsGet (.obj fs) p)) := by
  induction entries with
  | nil =>
      intro fs _ _
      simp
  | cons err rest ih =>
      intro fs hsim hmsg
      have hsim' : ∀ e ∈ rest, parsePath e.path = [Seg.key e.path] :=
        fun e he => hsim e (List.mem_cons_of_mem _ he)
      have hmsg' : ∀ e ∈ rest, e.message ≠ "" :=
        fun e he => hmsg e (List.mem_cons_of_mem _ he)
      have hesimple : parsePath err.path = [Seg.key err.path] :=
        hsim err (List.mem_cons_self _ _)
      have hemsg : err.message ≠ "" := hmsg err (List.mem_cons_self _ _)
      simp only [List.foldl_cons]
      by_cases hpq : err.path = p
      · by_cases htr : truthy (jsGet (.obj fs) p) = true
        · have hstep : yupFoldStep (.obj fs) err = .obj fs := by
            simp [yupFoldStep, hpq, htr]
          rw [hstep, ih fs hsim' hmsg', if_pos htr, if_pos htr]
        · have hstep : yupFoldStep (.obj fs) err =
              .obj (updateField fs p (.str err.message)) := by
            rw [yupFoldStep, hpq, if_neg htr]
            exact setIn_obj_simple (hpq ▸ hesimple) fs _
          rw [hstep, ih _ hsim' hmsg']
          have hg : jsGet (.obj (updateField fs p (.str err.message))) p =
              .str err.message := by
            simp [jsGet, findField_updateField_self]
          rw [hg]
          have htt : truthy (.str err.message) = true := by
            simp [truthy, hemsg]
          rw [if_pos htt, if_neg htr]
          rw [List.find?_cons_of_pos]
          · simp
          · simp [hpq]
      · have hobj : ∃ fs2, yupFoldStep (.obj fs) err = .obj fs2 ∧
            jsGet (.obj fs2) p = jsGet (.obj fs) p := by
          by_cases htr2 : truthy (jsGet (.obj fs) err.path) = true
          · exact ⟨fs, by simp [yupFoldStep, htr2], rfl⟩
          · refine ⟨updateField fs err.path (.str err.message), ?_, ?_⟩
            · rw [yupFoldStep, if_neg htr2]
              exact setIn_obj_simple hesimple fs _
            · have := jsGet_setIn_simple_ne hesimple hpq fs (.str err.message)
              rw [setIn_obj_simple hesimple] at this
              exact this
        obtain ⟨fs2, hfs2, hpres⟩ := hobj
        rw [hfs2, ih fs2 hsim' hmsg', hpres]
        rw [List.find?_cons_of_neg]
        · simp [hpq]

/-- C6 counterexample: two entries at the same nested path `a.b` — the claim
says the second is ignored because the path is already set, but the
already-set check consults the flat property `errors["a.b"]`, misses, and
the second message overwrites the first. -/
theorem C6_nested_path_counterexample :
    getIn (yupToFormErrors ⟨"", "", [⟨"a.b", "m1"⟩, ⟨"a.b", "m2"⟩]⟩) "a.b" =
      .str "m2" ∧
    Val.str "m2" ≠ .str "m1" := by
  refine ⟨rfl, ?_⟩
  intro h
  simp at h

/-- C6 amended: when `inner` is empty, `yupToFormErrors` writes a single
entry at the rejection's own path; otherwise entries are applied in source
order and — for entries whose paths are plain top-level keys with non-empty
messages — the first message per path wins; for nested paths the
already-set check consults the flat property and misses, so the last
message at the path wins instead. -/
theorem C6_first_message_amended :
    (∀ e : YupError, e.inner = [] →
       yupToFormErrors e = setIn emptyObj e.path (.str e.message)) ∧
    (∀ (e : YupError) (err₀ : YupInnerError),
       e.inner ≠ [] →
       (∀ err ∈ e.inner, parsePath err.path = [Seg.key err.path]) →
       (∀ err ∈ e.inner, err.message ≠ "") →
       e.inner.find? (fun err => err.path == err₀.path) = some err₀ →
       jsGet (yupToFormErrors e) err₀.path = .str err₀.message) := by
  constructor
  · intro e he
    simp [yupToFormErrors, he]
  · intro e err₀ hne hsim hmsg hfind
    have hlen : ¬ e.inner.length = 0 := by simpa using hne
    rw [yupToFormErrors, if_neg hlen]
    have hbase : (emptyObj : Val) = .obj [] := rfl
    rw [hbase, yupFold_get e.inner err₀.path [] hsim hmsg, hfind]
    simp [jsGet, findField, truthy]

/-- C6 witness: two entries at the plain key `email` — the first message
wins. -/
theorem C6_first_message_amended_witness :
    jsGet (yupToFormErrors
      ⟨"", "", [⟨"email", "required"⟩, ⟨"email", "too short"⟩]⟩) "email" =
      .str "required" :=
  C6_first_message_amended.2
    ⟨"", "", [⟨"email", "required"⟩, ⟨"email", "too short"⟩]⟩
    ⟨"email", "required"⟩ (by simp) (by decide) (by decide) (by decide)

/-! ## C7: field-level validation collection -/

theorem falsy_not_sentinel {v : Val} (h : truthy v = false) :
    isSentinelVal v = false := by
  cases v with
  | str s =>
      simp only [truthy, Bool.not_eq_false'] at h
      have hs : s = "" := by simpa using h
      subst hs
      rfl
  | num n => rfl
  | bool b => rfl
  | undefined => rfl
  | obj fs => rfl
  | arr xs => rfl

theorem fieldFoldStep_obj (fs : List (String × Val)) (k : String) (r : VResult)
    (hk : parsePath k = [Seg.key k]) :
    ∃ fs2, fieldFoldStep (.obj fs) (k, r) = .obj fs2 ∧
      (∀ q, q ≠ k → jsGet (.obj fs2) q = jsGet (.obj fs) q) ∧
      jsGet (.obj fs2) k =
        (if isSentinelVal (runSingleFieldLevelValidation r) = true then
           jsGet (.obj fs) k
         else if truthy (runSingleFieldLevelValidation r) = true then
           runSingleFieldLevelValidation r
         else jsGet (.obj fs) k) := by
  by_cases hs : isSentinelVal (runSingleFieldLevelValidation r) = true
  · exact ⟨fs, by simp [fieldFoldStep, hs], fun q hq => rfl, by simp [hs]⟩
  · by_cases ht : truthy (runSingleFieldLevelValidation r) = true
    · refine ⟨updateField fs k (runSingleFieldLevelValidation r), ?_, ?_, ?_⟩
      · simp only [fieldFoldStep, hs, ht, if_true, if_false, Bool.false_eq_true]
        simp [setIn_obj_simple hk]
      · intro q hq
        rw [← setIn_obj_simple hk]
        exact jsGet_setIn_simple_ne hk (Ne.symm hq) fs _
      · rw [← setIn_obj_simple hk, jsGet_setIn_simple_self hk]
        simp [hs, ht]
    · exact ⟨fs, by simp [fieldFoldStep, hs, ht], fun q hq => rfl, by simp [hs, ht]⟩

theorem fieldFold_get_notmem (pairs : List (String × VResult)) (f : String) :
    ∀ fs : List (String × Val),
    (∀ q ∈ pairs.map Prod.fst, parsePath q = [Seg.key q]) →
    f ∉ pairs.map Prod.fst →
    jsGet (fieldFold pairs (.obj fs)) f = jsGet (.obj fs) f := by
  induction pairs with
  | nil => intro fs _ _; rfl
  | cons kr rest ih =>
      intro fs hsim hnot
      obtain ⟨k, r⟩ := kr
      simp only [List.map_cons, List.mem_cons, not_or] at hnot
      obtain ⟨hfk, hfrest⟩ := hnot
      have hk : parsePath k = [Seg.key k] := hsim k (by simp)
      obtain ⟨fs2, hstep, hother, _⟩ := fieldFoldStep_obj fs k r hk
      have hfold : fieldFold ((k, r) :: rest) (.obj fs) = fieldFold rest (.obj fs2) := by
        simp only [fieldFold, List.foldl_cons]
        rw [hstep]
      rw [hfold, ih fs2 (fun q hq => hsim q (by simp [hq])) hfrest, hother f hfk]

theorem fieldFold_get_mem (pairs : List (String × VResult)) (f : String) (r : VResult) :
    ∀ fs : List (String × Val),
    (∀ q ∈ pairs.map Prod.fst, parsePath q = [Seg.key q]) →
    (pairs.map Prod.fst).Nodup →
    (f, r) ∈ pairs →
    jsGet (fieldFold pairs (.obj fs)) f =
      (if isSentinelVal (runSingleFieldLevelValidation r) = true then
         jsGet (.obj fs) f
       else if truthy (runSingleFieldLevelValidation r) = true then
         runSingleFieldLevelValidation r
       else jsGet (.obj fs) f) := by
  induction pairs with
  | nil => intro fs _ _ hmem; simp at hmem
  | cons kr rest ih =>
      intro fs hsim hnd hmem
      obtain ⟨k, r'⟩ := kr
      simp only [List.map_cons, List.nodup_cons] at hnd
      obtain ⟨hknotin, hnd'⟩ := hnd
      rcases List.mem_cons.mp hmem with heq | hmemrest
      · cases heq
        have hk : parsePath f = [Seg.key f] := hsim f (by simp)
        obtain ⟨fs2, hstep, _, hself⟩ := fieldFoldStep_obj fs f r hk
        have hfold : fieldFold ((f, r) :: rest) (.obj fs) =
            fieldFold rest (.obj fs2) := by
          simp only [fieldFold, List.foldl_cons]
          rw [hstep]
        rw [hfold,
          fieldFold_get_notmem rest f fs2 (fun q hq => hsim q (by simp [hq])) hknotin,
          hself]
      · have hkf : k ≠ f := by
          intro hk
          exact hknotin (hk ▸ (List.mem_map.mpr ⟨(f, r), hmemrest, rfl⟩))
        have hk : parsePath k = [Seg.key k] := hsim k (by simp)
        obtain ⟨fs2, hstep, hother, _⟩ := fieldFoldStep_obj fs k r' hk
        have hfold : fieldFold ((k, r') :: rest) (.obj fs) =
            fieldFold rest (.obj fs2) := by
          simp only [fieldFold, List.foldl_cons]
          rw [hstep]
        rw [hfold, ih fs2 (fun q hq => hsim q (by simp [hq])) hnd' hmemrest,
          hother f (Ne.symm hkf)]

theorem getD_append_cons {α : Type} (as : List α) (b : α) (bs : List α) (d : α) :
    (as ++ b :: bs).getD as.length d = b := by
  induction as with
  | nil => rfl
  | cons a rest ih => simpa using ih

theorem reduceAux_eq_fieldFold (pairs : List (String × VResult)) :
    ∀ (pre : List (String × VResult)) (acc : Val),
    reduceAux ((pre ++ pairs).map Prod.fst) pre.length acc
      (pairs.map (fun fr => runSingleFieldLevelValidation fr.2)) =
    fieldFold pairs acc := by
  induction pairs with
  | nil => intro pre acc; rfl
  | cons kr rest ih =>
      intro pre acc
      obtain ⟨k, r⟩ := kr
      have hkey : ((pre ++ (k, r) :: rest).map Prod.fst).getD pre.length "" = k := by
        have h1 : (pre ++ (k, r) :: rest).map Prod.fst =
            pre.map Prod.fst ++ k :: rest.map Prod.fst := by simp
        have h2 : pre.length = (pre.map Prod.fst).length := by simp
        rw [h1, h2, getD_append_cons]
      simp only [List.map_cons, reduceAux]
      rw [hkey]
      have happ : pre ++ (k, r) :: rest = (pre ++ [(k, r)]) ++ rest := by simp
      have hlen : pre.length + 1 = (pre ++ [(k, r)]).length := by simp
      rw [happ, hlen, ih (pre ++ [(k, r)])]
      simp [fieldFold, fieldFoldStep]

theorem withValidate_keys_sublist (fields : FieldRegistry) :
    ((fields.filterMap (fun fo => fo.2.map (fun r => (fo.1, r)))).map
      Prod.fst).Sublist (fields.map Prod.fst) := by
  induction fields with
  | nil => simp
  | cons fo rest ih =>
      obtain ⟨f, o⟩ := fo
      cases o with
      | none =>
          simp only [List.filterMap_cons, Option.map_none', List.map_cons]
          exact ih.cons f
      | some r =>
          simp only [List.filterMap_cons, Option.map_some', List.map_cons]
          exact ih.cons₂ f

/-- C7: over a registry of fields with plain top-level paths and distinct
names, a field whose validator throws (or rejects) a truthy, non-sentinel
value has that value collected as its error — the model is a total function,
so nothing is re-thrown and siblings are unaffected; a field whose validator
returns a falsy result contributes nothing at its path; and when no field
declares a validator, the sentinel never reaches the tree, which stays the
empty object. -/
theorem C7_field_level_collection (fields : FieldRegistry)
    (hsimple : ∀ fo ∈ fields, parsePath fo.1 = [Seg.key fo.1])
    (hnodup : (fields.map Prod.fst).Nodup) :
    (∀ f e, (f, some (VResult.thrown e)) ∈ fields → truthy e = true →
        isSentinelVal e = false →
        jsGet (runFieldLevelValidations fields) f = e) ∧
    (∀ f v, (f, some (VResult.ret v)) ∈ fields → truthy v = false →
        jsGet (runFieldLevelValidations fields) f = .undefined) ∧
    ((∀ fo ∈ fields, fo.2 = none) → runFieldLevelValidations fields = emptyObj) := by
  have hsub := withValidate_keys_sublist fields
  have hnd_wv := hsub.nodup hnodup
  have hsim_wv : ∀ q ∈ (fields.filterMap
      (fun fo => fo.2.map (fun r => (fo.1, r)))).map Prod.fst,
      parsePath q = [Seg.key q] := by
    intro q hq
    have hq2 := hsub.subset hq
    obtain ⟨fo, hfo, hfq⟩ := List.mem_map.mp hq2
    exact hfq ▸ hsimple fo hfo
  have hmemwv : ∀ {f : String} {r : VResult}, (f, some r) ∈ fields →
      (f, r) ∈ fields.filterMap (fun fo => fo.2.map (fun r => (fo.1, r))) := by
    intro f r h
    exact List.mem_filterMap.mpr ⟨(f, some r), h, rfl⟩
  have hrun : ∀ {f : String} {r : VResult}, (f, some r) ∈ fields →
      runFieldLevelValidations fields =
        fieldFold (fields.filterMap (fun fo => fo.2.map (fun r => (fo.1, r))))
          (.obj []) := by
    intro f r h
    have hwv := hmemwv h
    have hpos : 0 < ((fields.filterMap
        (fun fo => fo.2.map (fun r => (fo.1, r)))).map Prod.fst).length := by
      simp only [List.length_map]
      exact List.length_pos.mpr (List.ne_nil_of_mem hwv)
    simp only [runFieldLevelValidations, gt_iff_lt, hpos, if_true]
    have hbridge := reduceAux_eq_fieldFold
      (fields.filterMap (fun fo => fo.2.map (fun r => (fo.1, r)))) [] (.obj [])
    simpa using hbridge
  refine ⟨?_, ?_, ?_⟩
  · intro f e hmem htr hsent
    rw [hrun hmem,
      fieldFold_get_mem _ f (.thrown e) [] hsim_wv hnd_wv (hmemwv hmem)]
    simp [runSingleFieldLevelValidation, hsent, htr]
  · intro f v hmem htr
    rw [hrun hmem,
      fieldFold_get_mem _ f (.ret v) [] hsim_wv hnd_wv (hmemwv hmem)]
    simp [runSingleFieldLevelValidation, htr, falsy_not_sentinel htr, jsGet, findField]
  · intro hall
    have hwvnil : fields.filterMap (fun fo => fo.2.map (fun r => (fo.1, r))) = [] := by
      rw [List.filterMap_eq_nil_iff]
      intro fo hfo
      rw [hall fo hfo]
      rfl
    simp only [runFieldLevelValidations, hwvnil]
    rfl

/-- C7 witness: a registry with one throwing validator, one falsy-returning
validator and one validator-less field, plus a registry with no validators
at all. -/
theorem C7_field_level_collection_witness :
    jsGet (runFieldLevelValidations
      [("a", some (VResult.thrown (.str "boom"))),
       ("b", some (VResult.ret (.str ""))),
       ("c", none)]) "a" = .str "boom" ∧
    jsGet (runFieldLevelValidations
      [("a", some (VResult.thrown (.str "boom"))),
       ("b", some (VResult.ret (.str ""))),
       ("c", none)]) "b" = .undefined ∧
    runFieldLevelValidations [("c", none)] = emptyObj :=
  ⟨(C7_field_level_collection _ (by decide) (by decide)).1 "a" (.str "boom")
      (List.mem_cons_self _ _) rfl rfl,
   (C7_field_level_collection _ (by decide) (by decide)).2.1 "b" (.str "")
      (List.mem_cons_of_mem _ (List.mem_cons_self _ _)) rfl,
   (C7_field_level_collection [("c", none)] (by decide) (by decide)).2.2
      (by simp)⟩

/-! ## Validation-run lemmas -/

theorem startRun_fst (s : VCtrl) : (startRun s).1 = s.nextId := by
  simp [startRun]

theorem startRun_validator (s : VCtrl) :
    (startRun s).2.validator = some (startRun s).1 := by
  simp [startRun]

theorem startRun_nextId (s : VCtrl) : (startRun s).2.nextId = s.nextId + 1 := by
  simp [startRun]

theorem startRun_didMount (s : VCtrl) : (startRun s).2.didMount = s.didMount := by
  simp [startRun]

theorem mem_startRun_cancelled {s : VCtrl} {j : Nat} :
    j ∈ (startRun s).2.cancelled ↔ s.validator = some j ∨ j ∈ s.cancelled := by
  cases hv : s.validator with
  | none => simp [startRun, hv]
  | some i =>
      simp only [startRun, hv]
      constructor
      · intro h
        rcases List.mem_cons.mp h with h | h
        · exact Or.inl (by rw [h])
        · exact Or.inr h
      · intro h
        rcases h with h | h
        · exact List.mem_cons.mpr (Or.inl (Option.some.inj h).symm)
        · exact List.mem_cons.mpr (Or.inr h)

theorem VInv_startRun (s : VCtrl) (h : VInv s) : VInv (startRun s).2 := by
  obtain ⟨hc, hval⟩ := h
  constructor
  · intro j hj
    rw [startRun_nextId]
    rcases mem_startRun_cancelled.mp hj with hv | hv
    · exact Nat.lt_succ_of_lt (hval j hv)
    · exact Nat.lt_succ_of_lt (hc j hv)
  · intro i hi
    rw [startRun_validator, startRun_fst] at hi
    have h := Option.some.inj hi
    rw [startRun_nextId]
    omega

/-! ## C1: a superseded whole-form validation run never commits -/

/-- C1: starting run B while run A is pending cancels A's handle before B
begins (A's token joins the cancelled set, B becomes the stored handle, and
B itself is not cancelled); thereafter, in either completion order, only B's
merged result reaches the errors state, and A's settlement is the identity
on the whole controller state. -/
theorem C1_stale_run_never_commits (s₀ s₁ s₂ : VCtrl) (a b : Nat) (rA rB : Val)
    (hInv : VInv s₀) (hm : s₀.didMount = true)
    (hA : startRun s₀ = (a, s₁)) (hB : startRun s₁ = (b, s₂)) :
    s₂.validator = some b ∧
    a ∈ s₂.cancelled ∧
    b ∉ s₂.cancelled ∧
    settleRun s₂ a rA = s₂ ∧
    (settleRun (settleRun s₂ a rA) b rB).errors = rB ∧
    settleRun (settleRun s₂ b rB) a rA = settleRun s₂ b rB ∧
    (settleRun s₂ b rB).errors = rB := by
  have hval₁ : s₁.validator = some a := by
    have h := startRun_validator s₀
    rw [hA] at h
    exact h
  have hInv₁ : VInv s₁ := by
    have h := VInv_startRun s₀ hInv
    rw [hA] at h
    exact h
  have hb : b = s₁.nextId := by
    have h := startRun_fst s₁
    rw [hB] at h
    exact h
  have hdm₁ : s₁.didMount = true := by
    have h := startRun_didMount s₀
    rw [hA] at h
    exact h.trans hm
  have hdm₂ : s₂.didMount = true := by
    have h := startRun_didMount s₁
    rw [hB] at h
    exact h.trans hdm₁
  have hmem_a : a ∈ s₂.cancelled := by
    have h := mem_startRun_cancelled.mpr (Or.inl hval₁)
    rw [hB] at h
    exact h
  have hnot_b : b ∉ s₂.cancelled := by
    intro hmem
    have h : b ∈ (startRun s₁).2.cancelled := by rw [hB]; exact hmem
    rcases mem_startRun_cancelled.mp h with hv | hv
    · rw [hval₁] at hv
      have ha : a = s₀.nextId := by
        have h2 := startRun_fst s₀
        rw [hA] at h2
        exact h2
      have hn₁ : s₁.nextId = s₀.nextId + 1 := by
        have h2 := startRun_nextId s₀
        rw [hA] at h2
        exact h2
      have : a = b := Option.some.inj hv
      omega
    · have := hInv₁.1 b hv
      omega
  have hVal₂ : s₂.validator = some b := by
    have h := startRun_validator s₁
    rw [hB] at h
    exact h
  have hdrop : settleRun s₂ a rA = s₂ := by
    simp [settleRun, hmem_a]
  have hcommit : settleRun s₂ b rB = { s₂ with errors := rB } := by
    simp [settleRun, hnot_b, hdm₂]
  refine ⟨hVal₂, hmem_a, hnot_b, hdrop, ?_, ?_, ?_⟩
  · rw [hdrop, hcommit]
  · rw [hcommit]
    simp [settleRun, hmem_a]
  · rw [hcommit]

/-- C1 witness: two runs started from a fresh mounted controller; run 0 is
cancelled by the start of run 1 and its settlement is dropped in both
interleavings. -/
theorem C1_stale_run_never_commits_witness :
    (⟨emptyObj, true, some 1, [0], 2⟩ : VCtrl).validator = some 1 ∧
    0 ∈ (⟨emptyObj, true, some 1, [0], 2⟩ : VCtrl).cancelled ∧
    1 ∉ (⟨emptyObj, true, some 1, [0], 2⟩ : VCtrl).cancelled ∧
    settleRun ⟨emptyObj, true, some 1, [0], 2⟩ 0 (.str "A") =
      ⟨emptyObj, true, some 1, [0], 2⟩ ∧
    (settleRun (settleRun ⟨emptyObj, true, some 1, [0], 2⟩ 0 (.str "A")) 1
      (.str "B")).errors = .str "B" ∧
    settleRun (settleRun ⟨emptyObj, true, some 1, [0], 2⟩ 1 (.str "B")) 0 (.str "A") =
      settleRun ⟨emptyObj, true, some 1, [0], 2⟩ 1 (.str "B") ∧
    (settleRun ⟨emptyObj, true, some 1, [0], 2⟩ 1 (.str "B")).errors = .str "B" :=
  C1_stale_run_never_commits ⟨emptyObj, true, none, [], 0⟩
    ⟨emptyObj, true, some 0, [], 1⟩ ⟨emptyObj, true, some 1, [0], 2⟩
    0 1 (.str "A") (.str "B") ⟨by simp, by simp⟩ rfl rfl rfl

/-! ## C3 and C4: the submission state machine -/

/-- C3: a submit attempt whose merged ErrorTree has at least one top-level
key commits that tree to the errors state (so each validator-reported error
sits at its path), never invokes the submit handler, ends with
`isSubmitting` false, increments `submitCount` by exactly one, and resolves
the caller with no value. -/
theorem C3_submit_invalid (s : FState) (E : Val) {α : Type} (onSubmit : Val → α)
    (hE : topLevelKeyCount E ≠ 0) :
    (submitForm onSubmit true s E).1.errors = E ∧
    (∀ p, getIn (submitForm onSubmit true s E).1.errors p = getIn E p) ∧
    (submitForm onSubmit true s E).2.1 = [] ∧
    (submitForm onSubmit true s E).2.2 = none ∧
    (submitForm onSubmit true s E).1.isSubmitting = false ∧
    (submitForm onSubmit true s E).1.submitCount = s.submitCount + 1 := by
  simp [submitForm, hE]

/-- C3 witness: a field validator reported `"required"` at `email` and the
merged tree carries only that key — the handler log stays empty and the
attempt aborts. -/
theorem C3_submit_invalid_witness :
    (submitForm (fun v => v) true
      ⟨.obj [("email", .str "")], emptyObj, emptyObj, false, false, 0⟩
      (.obj [("email", .str "required")])).1.errors =
        .obj [("email", .str "required")] ∧
    (∀ p, getIn (submitForm (fun v => v) true
      ⟨.obj [("email", .str "")], emptyObj, emptyObj, false, false, 0⟩
      (.obj [("email", .str "required")])).1.errors p =
        getIn (.obj [("email", .str "required")]) p) ∧
    (submitForm (fun v => v) true
      ⟨.obj [("email", .str "")], emptyObj, emptyObj, false, false, 0⟩
      (.obj [("email", .str "required")])).2.1 = [] ∧
    (submitForm (fun v => v) true
      ⟨.obj [("email", .str "")], emptyObj, emptyObj, false, false, 0⟩
      (.obj [("email", .str "required")])).2.2 = none ∧
    (submitForm (fun v => v) true
      ⟨.obj [("email", .str "")], emptyObj, emptyObj, false, false, 0⟩
      (.obj [("email", .str "required")])).1.isSubmitting = false ∧
    (submitForm (fun v => v) true
      ⟨.obj [("email", .str "")], emptyObj, emptyObj, false, false, 0⟩
      (.obj [("email", .str "required")])).1.submitCount = 0 + 1 :=
  C3_submit_invalid _ _ _ (by decide)

/-- C4: a submit attempt whose merged ErrorTree has zero top-level keys
invokes the submit handler exactly once with the current values, hands the
handler's result back to the caller, ends with `isValidating` false, and
leaves `isSubmitting` true (the controller never clears it on this path). -/
theorem C4_submit_valid (s : FState) (E : Val) {α : Type} (onSubmit : Val → α)
    (hE : topLevelKeyCount E = 0) :
    (submitForm onSubmit true s E).2.1 = [s.values] ∧
    (submitForm onSubmit true s E).2.2 = some (onSubmit s.values) ∧
    (submitForm onSubmit true s E).1.isValidating = false ∧
    (submitForm onSubmit true s E).1.isSubmitting = true ∧
    (submitForm onSubmit true s E).1.values = s.values := by
  simp [submitForm, hE]

/-- C4 witness: an empty merged tree lets the handler run once on the
current values. -/
theorem C4_submit_valid_witness :
    (submitForm (fun v => v) true
      ⟨.obj [("email", .str "a@b")], emptyObj, emptyObj, false, false, 0⟩
      emptyObj).2.1 = [.obj [("email", .str "a@b")]] ∧
    (submitForm (fun v => v) true
      ⟨.obj [("email", .str "a@b")], emptyObj, emptyObj, false, false, 0⟩
      emptyObj).2.2 = some (.obj [("email", .str "a@b")]) ∧
    (submitForm (fun v => v) true
      ⟨.obj [("email", .str "a@b")], emptyObj, emptyObj, false, false, 0⟩
      emptyObj).1.isValidating = false ∧
    (submitForm (fun v => v) true
      ⟨.obj [("email", .str "a@b")], emptyObj, emptyObj, false, false, 0⟩
      emptyObj).1.isSubmitting = true ∧
    (submitForm (fun v => v) true
      ⟨.obj [("email", .str "a@b")], emptyObj, emptyObj, false, false, 0⟩
      emptyObj).1.values = .obj [("email", .str "a@b")] :=
  C4_submit_valid _ _ _ rfl

/-! ## C8: teardown -/

/-- C8: tearing the controller down clears the mounted flag and cancels the
in-flight whole-form validation handle; a validation settlement arriving
after teardown (any run, any result) leaves the state untouched — the
settlement is a total function, so nothing is thrown either. -/
theorem C8_teardown (s : VCtrl) (i j : Nat) (r : Val) (hj : s.validator = some j) :
    (unmount s).didMount = false ∧
    j ∈ (unmount s).cancelled ∧
    settleRun (unmount s) i r = unmount s := by
  have hdm : (unmount s).didMount = false := by
    simp [unmount]
  refine ⟨hdm, ?_, ?_⟩
  · simp [unmount, hj]
  · simp [settleRun, hdm]

/-- C8 witness: teardown with run 0 in flight, then a late settlement of that
run. -/
theorem C8_teardown_witness :
    (unmount ⟨emptyObj, true, some 0, [], 1⟩).didMount = false ∧
    0 ∈ (unmount ⟨emptyObj, true, some 0, [], 1⟩).cancelled ∧
    settleRun (unmount ⟨emptyObj, true, some 0, [], 1⟩) 0 (.str "late") =
      unmount ⟨emptyObj, true, some 0, [], 1⟩ :=
  C8_teardown _ 0 0 (.str "late") rfl

/-! ## Association-list lemmas for the handler cache -/

theorem lookupKey_mem {α : Type} {fs : List (String × α)} {k : String} {v : α}
    (h : lookupKey fs k = some v) : v ∈ fs.map Prod.snd := by
  induction fs with
  | nil => simp [lookupKey] at h
  | cons kv rest ih =>
      obtain ⟨a, b⟩ := kv
      by_cases hk : a = k
      · simp [lookupKey, hk] at h
        simp [h]
      · simp only [lookupKey, if_neg hk] at h
        simp [ih h]

theorem lookupKey_none_append {α : Type} {l₁ l₂ : List (String × α)} {k : String}
    (h : lookupKey l₁ k = none) : lookupKey (l₁ ++ l₂) k = lookupKey l₂ k := by
  induction l₁ with
  | nil => rfl
  | cons kv rest ih =>
      obtain ⟨a, b⟩ := kv
      by_cases hk : a = k
      · simp [lookupKey, hk] at h
      · simp only [lookupKey, if_neg hk] at h
        simp only [List.cons_append, lookupKey, if_neg hk]
        exact ih h

theorem lookupKey_some_append {α : Type} {l₁ : List (String × α)}
    (l₂ : List (String × α)) {k : String} {v : α}
    (h : lookupKey l₁ k = some v) : lookupKey (l₁ ++ l₂) k = some v := by
  induction l₁ with
  | nil => simp [lookupKey] at h
  | cons kv rest ih =>
      obtain ⟨a, b⟩ := kv
      by_cases hk : a = k
      · simp only [lookupKey, if_pos hk] at h
        simp only [List.cons_append, lookupKey, if_pos hk]
        exact h
      · simp only [lookupKey, if_neg hk] at h
        simp only [List.cons_append, lookupKey, if_neg hk]
        exact ih h

theorem lookupKey_nodup_values_ne {α : Type} {fs : List (String × α)}
    {p q : String} {a b : α} (hnd : (fs.map Prod.snd).Nodup) (hpq : p ≠ q)
    (hp : lookupKey fs p = some a) (hq : lookupKey fs q = some b) : a ≠ b := by
  induction fs with
  | nil => simp [lookupKey] at hp
  | cons kv rest ih =>
      obtain ⟨k, v⟩ := kv
      simp only [List.map_cons, List.nodup_cons] at hnd
      obtain ⟨hvnotin, hnd'⟩ := hnd
      by_cases hk : k = p
      · have hkq : ¬ k = q := fun h => hpq (hk.symm.trans h)
        simp only [lookupKey, if_pos hk] at hp
        simp only [lookupKey, if_neg hkq] at hq
        have hb := lookupKey_mem hq
        intro hab
        exact hvnotin ((Option.some.inj hp) ▸ hab ▸ hb)
      · by_cases hk2 : k = q
        · simp only [lookupKey, if_neg hk] at hp
          simp only [lookupKey, if_pos hk2] at hq
          have ha := lookupKey_mem hp
          intro hab
          exact hvnotin ((Option.some.inj hq) ▸ hab ▸ ha)
        · simp only [lookupKey, if_neg hk] at hp
          simp only [lookupKey, if_neg hk2] at hq
          exact ih hnd' hp hq

/-! ## C9: `handleChange` handler memoization -/

/-- C9: on a well-formed cache, asking `handleChange` for the handler of the
same path a second time returns the identical handler token and leaves the
cache unchanged (so every further call returns the same token again), while
asking for a different path returns a distinct token. -/
theorem C9_handleChange_memoized (s : HCState) (p q : String)
    (hInv : HCInv s) (hpq : p ≠ q) :
    (handleChangeCached (handleChangeCached s p).2 p).1 = (handleChangeCached s p).1 ∧
    (handleChangeCached (handleChangeCached s p).2 p).2 = (handleChangeCached s p).2 ∧
    (handleChangeCached (handleChangeCached s p).2 q).1 ≠ (handleChangeCached s p).1 := by
  obtain ⟨hnd, hlt⟩ := hInv
  cases hp : lookupKey s.hcCache p with
  | some h =>
      have h1 : handleChangeCached s p = (h, s) := by
        simp [handleChangeCached, hp]
      rw [h1]
      refine ⟨?_, ?_, ?_⟩
      · simp [handleChangeCached, hp]
      · simp [handleChangeCached, hp]
      · cases hq : lookupKey s.hcCache q with
        | some h2 =>
            have hne := lookupKey_nodup_values_ne hnd hpq hp hq
            simp only [handleChangeCached, hq]
            exact fun e => hne e.symm
        | none =>
            have hmem := lookupKey_mem hp
            have := hlt h hmem
            simp only [handleChangeCached, hq]
            omega
  | none =>
      have h1 : handleChangeCached s p =
          (s.nextHandler, ⟨s.hcCache ++ [(p, s.nextHandler)], s.nextHandler + 1⟩) := by
        simp [handleChangeCached, hp]
      rw [h1]
      have hp2 : lookupKey (s.hcCache ++ [(p, s.nextHandler)]) p = some s.nextHandler := by
        rw [lookupKey_none_append hp]
        simp [lookupKey]
      refine ⟨?_, ?_, ?_⟩
      · simp [handleChangeCached, hp2]
      · simp [handleChangeCached, hp2]
      · cases hq : lookupKey (s.hcCache ++ [(p, s.nextHandler)]) q with
        | some h2 =>
            have hq' : lookupKey s.hcCache q = some h2 := by
              cases hqq : lookupKey s.hcCache q with
              | some x =>
                  have hx := lookupKey_some_append [(p, s.nextHandler)] hqq
                  rw [hx] at hq
                  exact hq
              | none =>
                  rw [lookupKey_none_append hqq] at hq
                  simp only [lookupKey, if_neg hpq] at hq
                  exact absurd hq (by simp)
            have hmem := lookupKey_mem hq'
            have := hlt h2 hmem
            simp only [handleChangeCached, hq]
            omega
        | none =>
            simp only [handleChangeCached, hq]
            omega

/-- C9 witness: from an empty cache, `email` twice returns the same token
and `name` returns a different one. -/
theorem C9_handleChange_memoized_witness :
    (handleChangeCached (handleChangeCached ⟨[], 0⟩ "email").2 "email").1 =
      (handleChangeCached ⟨[], 0⟩ "email").1 ∧
    (handleChangeCached (handleChangeCached ⟨[], 0⟩ "email").2 "email").2 =
      (handleChangeCached ⟨[], 0⟩ "email").2 ∧
    (handleChangeCached (handleChangeCached ⟨[], 0⟩ "email").2 "name").1 ≠
      (handleChangeCached ⟨[], 0⟩ "email").1 :=
  C9_handleChange_memoized ⟨[], 0⟩ "email" "name" ⟨by simp, by simp⟩ (by decide)

/-! ## C10: reset through a promise-returning reset handler -/

/-- C10: when the configured reset handler returns an awaitable resolving to
a truthy value, `handleReset` passes that value to `resetForm`, which makes
it both the new values and the new remembered initial values. -/
theorem C10_reset_with_resolved_value (s : RCtrl) (v : Val) (hv : truthy v = true) :
    (handleReset s (.promiseResolve v)).values = v ∧
    (handleReset s (.promiseResolve v)).initialValues = v := by
  simp [handleReset, resetForm, hv]

/-- C10 witness: a reset handler resolving to a fresh object replaces both
the values and the remembered initial values. -/
theorem C10_reset_with_resolved_value_witness :
    (handleReset
      ⟨.undefined, emptyObj, emptyObj, .undefined, .undefined, false, false, 0,
        .obj [("a", .str "init")], .obj [("a", .str "init")], .undefined⟩
      (.promiseResolve (.obj [("a", .str "reset")]))).values =
        .obj [("a", .str "reset")] ∧
    (handleReset
      ⟨.undefined, emptyObj, emptyObj, .undefined, .undefined, false, false, 0,
        .obj [("a", .str "init")], .obj [("a", .str "init")], .undefined⟩
      (.promiseResolve (.obj [("a", .str "reset")]))).initialValues =
        .obj [("a", .str "reset")] :=
  C10_reset_with_resolved_value _ _ rfl

end Formik
